import Mathlib

/-!
Verification development for the `rhai-autodocs` documentation-model engine.

The Rust sources are shallowly embedded: strings are lists of characters
(`Str`), Rust's `str`/`String` operations are modelled by structural
recursive functions below, fallible code returns `Except`/`Option`, and
the stateful text scanners are explicit folds over the line list.

Modelling notes, applying throughout:
* Rust `str` is UTF-8; byte-wise lexicographic order on UTF-8 coincides
  with code-point order, so `Char`-wise comparison is faithful.
* Rust's `sort_by`/`sort_by_key` are documented stable sorts; a stable
  sort is extensionally unique, so the structural insertion sort `sortLe`
  below models them exactly.
* `HashMap` iteration order is unspecified in Rust; grouping is modelled
  with an insertion-ordered association list.  No theorem below depends
  on group iteration order.
-/

/-- Strings as character lists (shallow embedding of Rust `str`). -/
abbrev Str := List Char

/-- Converts a Lean string literal to the embedded representation. -/
def ofStr (s : String) : Str := s.data

/-- `startsWith s p`: does `s` start with `p`?  Models `str::starts_with`. -/
def startsWith : Str → Str → Bool
  | _, [] => true
  | [], _ :: _ => false
  | c :: s, p :: ps => c == p && startsWith s ps

/-- Models `str::strip_prefix`: `some` of the remainder when `p` leads `s`. -/
def stripPre : Str → Str → Option Str
  | s, [] => some s
  | [], _ :: _ => none
  | c :: s, p :: ps => if c == p then stripPre s ps else none

/-- Models `str::strip_suffix`. -/
def stripSuf (s p : Str) : Option Str :=
  (stripPre s.reverse p.reverse).map List.reverse

/-- `containsSub s p`: does `p` occur as a contiguous substring of `s`?
Models `str::contains` with a string pattern. -/
def containsSub : Str → Str → Bool
  | [], p => p.isEmpty
  | c :: s, p => startsWith (c :: s) p || containsSub s p

/-- Models `str::split_once`: splits at the first occurrence of `p`. -/
def splitOnce : Str → Str → Option (Str × Str)
  | [], p => if p.isEmpty then some ([], []) else none
  | c :: t, p =>
    if startsWith (c :: t) p then some ([], (c :: t).drop p.length)
    else (splitOnce t p).map (fun pr => (c :: pr.1, pr.2))

/-- Models `str::rsplit_once`: splits at the last occurrence of `p`,
returning the part before and the part after the pattern. -/
def rsplitOnce : Str → Str → Option (Str × Str)
  | [], p => if p.isEmpty then some ([], []) else none
  | c :: t, p =>
    match rsplitOnce t p with
    | some pr => some (c :: pr.1, pr.2)
    | none =>
      if startsWith (c :: t) p then some ([], (c :: t).drop p.length)
      else none

/-- Fuel-indexed worker for `replaceSub`; the fuel is an upper bound on the
length of the scanned string, so the recursion is structural and the kernel
can evaluate it.  Mirrors `str::replace`'s left-to-right non-overlapping
scan. -/
def replaceSubFuel : Nat → Str → Str → Str → Str
  | 0, s, _, _ => s
  | _ + 1, s, [], _ => s
  | fuel + 1, s, p :: ps, r =>
    match s with
    | [] => []
    | c :: t =>
      if startsWith (c :: t) (p :: ps) then
        r ++ replaceSubFuel fuel ((c :: t).drop (p :: ps).length) (p :: ps) r
      else c :: replaceSubFuel fuel t (p :: ps) r

/-- Models `str::replace` (every call site in the source uses a non-empty
pattern; for the empty pattern this returns the input unchanged). -/
def replaceSub (s p r : Str) : Str := replaceSubFuel s.length s p r

/-- ASCII whitespace test.  `str::trim` strips Unicode whitespace; every
string trimmed by the source is ASCII, where the two notions agree. -/
def isWhite (c : Char) : Bool := c == ' ' || c == '\t' || c == '\n' || c == '\r'

/-- Models `str::trim`. -/
def trimStr (s : Str) : Str :=
  ((s.dropWhile isWhite).reverse.dropWhile isWhite).reverse

/-- Fuel-indexed worker for `splitOnSub` (same fuel discipline as
`replaceSubFuel`). -/
def splitOnSubFuel : Nat → Str → Str → List Str
  | 0, s, _ => [s]
  | _ + 1, s, [] => [s]
  | fuel + 1, s, p :: ps =>
    match s with
    | [] => [[]]
    | c :: t =>
      if startsWith (c :: t) (p :: ps) then
        [] :: splitOnSubFuel fuel ((c :: t).drop (p :: ps).length) (p :: ps)
      else
        match splitOnSubFuel fuel t (p :: ps) with
        | [] => [[]]
        | a :: rest => (c :: a) :: rest

/-- Models `str::split` with a string pattern, collected to a list. -/
def splitOnSub (s p : Str) : List Str := splitOnSubFuel s.length s p

/-- Joins a list of strings with a separator; models `[String]::join`. -/
def joinSep (sep : Str) : List Str → Str
  | [] => []
  | [x] => x
  | x :: y :: xs => x ++ sep ++ joinSep sep (y :: xs)

/-- Drops one trailing carriage return; `str::lines` does this to lines
terminated by `\r\n`. -/
def stripCR (l : Str) : Str :=
  match l.reverse with
  | '\r' :: t => t.reverse
  | _ => l

/-- Worker for `rustLines`: `acc` is the current line collected so far. -/
def linesAux : Str → Str → List Str
  | [], acc => [acc]
  | c :: rest, acc =>
    if c == '\n' then
      match rest with
      | [] => [stripCR acc]
      | _ :: _ => stripCR acc :: linesAux rest []
    else linesAux rest (acc ++ [c])

/-- Models `str::lines`: splits at `\n` (stripping a `\r` left before it),
with the final line ending optional and the empty string yielding no
lines. -/
def rustLines : Str → List Str
  | [] => []
  | c :: s => linesAux (c :: s) []

/-- Models `str::parse::<usize>` (an optional leading `+`, then one or more
ASCII digits).  Integer overflow, which Rust reports as an error, is not
modelled; every directive index in the claims is small. -/
def parseUsize (s : Str) : Option Nat :=
  let digits := match s with
    | '+' :: rest => rest
    | _ => s
  if digits.isEmpty then none
  else if digits.all (fun c => c.isDigit) then
    some (digits.foldl (fun n c => n * 10 + (c.toNat - '0'.toNat)) 0)
  else none

/-! ## `src/function.rs` — signature synthesis -/

/-- `is_operator` from `function.rs`: the fixed operator-symbol set. -/
def is_operator (name : Str) : Bool :=
  [ofStr "==", ofStr "!=", ofStr ">", ofStr ">=", ofStr "<", ofStr "<=",
   ofStr "in"].any (fun op => op == name)

/-- `remove_result` from `function.rs`: unwraps the fallible-result wrapper
type names from a return type. -/
def remove_result (ty : Str) : Str :=
  let stripped : Option Str :=
    match stripPre ty (ofStr "Result<") with
    | some t =>
      match stripSuf t (ofStr ",Box<EvalAltResult>>") with
      | some r => some r
      | none =>
        match stripSuf t (ofStr ",Box<rhai::EvalAltResult>>") with
        | some r => some r
        | none =>
          match stripSuf t (ofStr ", Box<EvalAltResult>>") with
          | some r => some r
          | none =>
            match stripSuf t (ofStr ", Box<rhai::EvalAltResult>>") with
            | some r => some r
            | none => stripSuf t (ofStr ">")
    | none =>
      match stripPre ty (ofStr "EngineResult<") with
      | some t => stripSuf t (ofStr ">")
      | none =>
        match
          (match stripPre ty (ofStr "RhaiResultOf<") with
           | some t => some t
           | none => stripPre ty (ofStr "rhai::RhaiResultOf<")) with
        | some t => stripSuf t (ofStr ">")
        | none => none
  match stripped with
  | some t => trimStr t
  | none => ty

/-- Concrete value of `std::any::type_name::<rhai::INT>()` (default build). -/
def typeNameINT : Str := ofStr "i64"

/-- Concrete value of `std::any::type_name::<rhai::FLOAT>()`. -/
def typeNameFLOAT : Str := ofStr "f64"

/-- Concrete value of `std::any::type_name::<rhai::Array>()`. -/
def typeNameArray : Str := ofStr "alloc::vec::Vec<rhai::types::dynamic::Dynamic>"

/-- Concrete value of `std::any::type_name::<rhai::Blob>()`. -/
def typeNameBlob : Str := ofStr "alloc::vec::Vec<u8>"

/-- Concrete value of `std::any::type_name::<rhai::Map>()`. -/
def typeNameMap : Str :=
  ofStr "alloc::collections::btree::map::BTreeMap<smartstring::SmartString<smartstring::LazyCompact>, rhai::types::dynamic::Dynamic>"

/-- Concrete value of `std::any::type_name::<rhai::Instant>()`. -/
def typeNameInstant : Str := ofStr "std::time::Instant"

/-- Concrete value of `std::any::type_name::<rhai::FnPtr>()`. -/
def typeNameFnPtr : Str := ofStr "rhai::types::fn_ptr::FnPtr"

/-- `def_type_name` from `function.rs`: maps a raw Rust type name to its
documented alias.  `none` is returned exactly for the unit type `()`
(after stripping and substitution). -/
def def_type_name (ty : Str) : Option Str :=
  let ty := match stripPre ty (ofStr "&mut") with
    | some t => t
    | none => ty
  let ty := trimStr ty
  let ty := remove_result ty
  let ty := (splitOnSub ty (ofStr "::")).getLastD []
  let ty := replaceSub ty (ofStr "Iterator<Item=") (ofStr "Iterator<")
  let ty := replaceSub ty (ofStr "Dynamic") (ofStr "?")
  let ty := replaceSub ty (ofStr "INT") (ofStr "int")
  let ty := replaceSub ty typeNameINT (ofStr "int")
  let ty := replaceSub ty (ofStr "FLOAT") (ofStr "float")
  let ty := replaceSub ty (ofStr "&str") (ofStr "String")
  let ty := replaceSub ty (ofStr "ImmutableString") (ofStr "String")
  let ty := replaceSub ty typeNameFLOAT (ofStr "float")
  let ty := replaceSub ty typeNameArray (ofStr "Array")
  let ty := replaceSub ty typeNameBlob (ofStr "Blob")
  let ty := replaceSub ty typeNameMap (ofStr "Map")
  let ty := replaceSub ty typeNameInstant (ofStr "Instant")
  let ty := replaceSub ty typeNameFnPtr (ofStr "FnPtr")
  if ty == ofStr "()" then none else some ty

/-- `Arg` from `function.rs`. -/
structure Arg where
  name : Str
  ty : Str
deriving DecidableEq

/-- `Arg::unknown`. -/
def Arg.unknown : Arg := { name := ofStr "_", ty := ofStr "?" }

/-- The `Display` impl for `Arg`: `"{name}: {ty}"`. -/
def argDisplay (a : Arg) : Str := a.name ++ ofStr ": " ++ a.ty

/-- One parameter descriptor: models the `HashMap<String, String>` holding
the optional `"name"` and `"type"` keys. -/
structure ParamMap where
  pname : Option Str
  ptype : Option Str
deriving DecidableEq

/-- `Definition` from `function.rs` (the pseudo-signature model). -/
inductive Definition where
  | Function (name : Str) (args : List Arg) (return_type : Option Str)
  | Operator (name : Str) (arg1 arg2 : Arg) (return_type : Option Str)
  | Get (target index : Arg) (return_type : Option Str)
  | Set (target index value : Arg)
  | IndexGet (target index : Arg) (return_type : Option Str)
  | IndexSet (target index value : Arg)
deriving DecidableEq

/-- The inner `get_arg` helper of `Definition::new`. -/
def get_arg (args : List ParamMap) (index : Nat) : Arg :=
  match args.get? index with
  | none => Arg.unknown
  | some d =>
    { name := d.pname.getD (ofStr "_"),
      ty := (d.ptype.bind def_type_name).getD (ofStr "?") }

/-- `Definition::new` from `function.rs`: classifies by name and resolves
argument slots. -/
def Definition.new (name : Str) (args : List ParamMap)
    (return_type : Option Str) : Definition :=
  let return_type := return_type.bind def_type_name
  if is_operator name then
    .Operator name (get_arg args 0) (get_arg args 1) return_type
  else
    match stripPre name (ofStr "get$") with
    | some n => .Get (get_arg args 0) { name := n, ty := ofStr "_" } return_type
    | none =>
      match stripPre name (ofStr "set$") with
      | some n => .Set (get_arg args 0) { name := n, ty := ofStr "_" } (get_arg args 1)
      | none =>
        if (stripPre name (ofStr "index$get$")).isSome then
          .IndexGet (get_arg args 0) (get_arg args 1) return_type
        else if (stripPre name (ofStr "index$set$")).isSome then
          .IndexSet (get_arg args 0) (get_arg args 1) (get_arg args 2)
        else
          .Function name ((List.range args.length).map (get_arg args)) return_type

/-- `Definition::display` from `function.rs`, reproduced exactly — including
the `map_or(")".to_string(), …)` default appended when an `Operator`, `Get`
or `IndexGet` has no return type. -/
def Definition.display : Definition → Str
  | .Function name args return_type =>
    ofStr "fn " ++ name ++ ofStr "(" ++ joinSep (ofStr ", ") (args.map argDisplay)
      ++ ofStr ")"
      ++ (match return_type with
          | some rt => ofStr " -> " ++ rt
          | none => [])
  | .Operator name arg1 arg2 return_type =>
    ofStr "op " ++ arg1.ty ++ ofStr " " ++ name ++ ofStr " " ++ arg2.ty
      ++ (match return_type with
          | some rt => ofStr " -> " ++ rt
          | none => ofStr ")")
  | .Get target index return_type =>
    ofStr "get " ++ target.ty ++ ofStr "." ++ index.name
      ++ (match return_type with
          | some rt => ofStr " -> " ++ rt
          | none => ofStr ")")
  | .Set target index value =>
    ofStr "set " ++ target.ty ++ ofStr "." ++ index.name ++ ofStr " = " ++ value.ty
  | .IndexGet target index return_type =>
    ofStr "index get " ++ target.ty ++ ofStr "[" ++ argDisplay index ++ ofStr "]"
      ++ (match return_type with
          | some rt => ofStr " -> " ++ rt
          | none => ofStr ")")
  | .IndexSet target index value =>
    ofStr "index set " ++ target.ty ++ ofStr "[" ++ argDisplay index ++ ofStr "] = "
      ++ value.ty

/-- `Definition::type_to_str` from `function.rs`. -/
def Definition.type_to_str : Definition → Str
  | .Function _ _ _ => ofStr "fn"
  | .Operator _ _ _ _ => ofStr "op"
  | .Get _ _ _ => ofStr "get"
  | .Set _ _ _ => ofStr "set"
  | .IndexGet _ _ _ => ofStr "index get"
  | .IndexSet _ _ _ => ofStr "index set"

/-- `Definition::name` from `function.rs` (the normalized group name). -/
def Definition.defName : Definition → Str
  | .Function name _ _ => name
  | .Operator name _ _ _ => name
  | .Get _ index _ => index.name
  | .Set _ index _ => index.name
  | .IndexGet _ index _ => index.name
  | .IndexSet _ index _ => index.name

/-- The constructor tag of a `Definition` (its function kind). -/
inductive DefKind where
  | fn | op | get | set | indexGet | indexSet
deriving DecidableEq

/-- Projects the kind (constructor) of a `Definition`. -/
def Definition.kind : Definition → DefKind
  | .Function _ _ _ => .fn
  | .Operator _ _ _ _ => .op
  | .Get _ _ _ => .get
  | .Set _ _ _ => .set
  | .IndexGet _ _ _ => .indexGet
  | .IndexSet _ _ _ => .indexSet

/-- `FunctionMetadata` from `function.rs`, restricted to the fields the
embedded operations read (`access`, the hashes, `signature`, `namespace`
and `num_params` are carried by the Rust struct but never consumed by the
code under verification). -/
structure FunctionMetadata where
  name : Str
  params : Option (List ParamMap)
  return_type : Option Str
  doc_comments : Option (List Str)
deriving DecidableEq

/-- `FunctionMetadata::generate_function_definition`. -/
def generate_function_definition (m : FunctionMetadata) : Definition :=
  Definition.new m.name (m.params.getD []) m.return_type

/-! ## `src/export.rs` — options and ordering -/

/-- `RHAI_ITEM_INDEX_PATTERN` from `export.rs`. -/
def RHAI_ITEM_INDEX_PATTERN : Str := ofStr "# rhai-autodocs:index:"

/-- `ItemsOrder` from `export.rs`. -/
inductive ItemsOrder where
  | Alphabetical
  | ByIndex
deriving DecidableEq

/-- `SectionFormat` from `export.rs`. -/
inductive SectionFormat where
  | Rust
  | Tabs
deriving DecidableEq

/-- `Options` from `export.rs`. -/
structure Options where
  items_order : ItemsOrder
  sections_format : SectionFormat
  include_standard_packages : Bool
deriving DecidableEq

/-! ## `src/custom_types.rs` and `src/module.rs` — records and errors -/

/-- `CustomTypesMetadata` from `custom_types.rs` (named `custom_types::Metadata`
at the `item.rs` use sites). -/
structure CustomTypeMetadata where
  type_name : Str
  display_name : Str
  doc_comments : Option (List Str)
deriving DecidableEq

/-- `module::Error` from `module.rs`.  `ParseOrderMetadata` carries
`std::num::ParseIntError` in Rust; the embedded constructor carries the
unparseable digit string instead. -/
inductive Error where
  | ParseOrderMetadata (input : Str)
  | ParseModuleMetadata
deriving DecidableEq

/-- Equality of `Except` values is decidable when both components are. -/
instance {ε α : Type _} [DecidableEq ε] [DecidableEq α] : DecidableEq (Except ε α) :=
  fun x y =>
    match x, y with
    | .ok a, .ok b =>
      if h : a = b then .isTrue (congrArg Except.ok h)
      else .isFalse (fun he => h (Except.ok.inj he))
    | .error a, .error b =>
      if h : a = b then .isTrue (congrArg Except.error h)
      else .isFalse (fun he => h (Except.error.inj he))
    | .ok _, .error _ => .isFalse (fun he => Except.noConfusion he)
    | .error _, .ok _ => .isFalse (fun he => Except.noConfusion he)

/-! ## `src/item.rs` — documentation items and comment processing -/

/-- `Item` from `item.rs`. -/
inductive Item where
  | Function (root_metadata : FunctionMetadata) (metadata : List FunctionMetadata)
      (name : Str) (index : Nat)
  | CustomType (metadata : CustomTypeMetadata) (index : Nat)
deriving DecidableEq

/-- `Item::name` from `item.rs` (the display name used for ordering). -/
def Item.itemName : Item → Str
  | .Function _ _ name _ => name
  | .CustomType metadata _ => metadata.display_name

/-- `Item::index` from `item.rs`. -/
def Item.itemIndex : Item → Nat
  | .Function _ _ _ index => index
  | .CustomType _ index => index

/-- `Item::find_index` from `item.rs`: scans the doc comments for the first
line containing the ordering directive; a missing directive yields
`Ok(None)`, an unparseable value is an error. -/
def Item.find_index : List Str → Except Error (Option Nat)
  | [] => .ok none
  | line :: rest =>
    match rsplitOnce line RHAI_ITEM_INDEX_PATTERN with
    | some pr =>
      match parseUsize pr.2 with
      | some n => .ok (some n)
      | none => .error (.ParseOrderMetadata pr.2)
    | none => Item.find_index rest

/-- `Item::new_function` from `item.rs`: picks the first documented overload
as root; anonymous groups and undocumented groups yield `Ok(None)`; in
by-index mode a group whose root has no directive also yields `Ok(None)`. -/
def Item.new_function (metadata : List FunctionMetadata) (name : Str)
    (options : Options) : Except Error (Option Item) :=
  match metadata.find? (fun m => m.doc_comments.isSome) with
  | some root =>
    if !(startsWith name (ofStr "anon$")) then
      match (if options.items_order == ItemsOrder.ByIndex then
               Item.find_index (root.doc_comments.getD [])
             else .ok (some 0)) with
      | .error e => .error e
      | .ok none => .ok none
      | .ok (some index) => .ok (some (.Function root metadata name index))
    else .ok none
  | none => .ok none

/-- `Item::new_custom_type` from `item.rs`. -/
def Item.new_custom_type (metadata : CustomTypeMetadata) (options : Options) :
    Except Error (Option Item) :=
  match (if options.items_order == ItemsOrder.ByIndex then
           Item.find_index (metadata.doc_comments.getD [])
         else .ok (some 0)) with
  | .error e => .error e
  | .ok none => .ok none
  | .ok (some index) => .ok (some (.CustomType metadata index))

/-- `Item::remove_extra_tokens` from `item.rs`: drops every line containing
the ordering directive from each comment block. -/
def remove_extra_tokens (dc : List Str) : List Str :=
  dc.map (fun s =>
    joinSep (ofStr "\n")
      ((rustLines s).filter (fun l => !containsSub l RHAI_ITEM_INDEX_PATTERN)))

/-- `Item::fmt_doc_comments` from `item.rs`: strips the verbatim comment
marker tokens.  The source repeats the `"**/"` replacement; both passes are
reproduced here. -/
def fmt_doc_comments (dc : Str) : Str :=
  let dc := replaceSub dc (ofStr "/// ") []
  let dc := replaceSub dc (ofStr "///") []
  let dc := replaceSub dc (ofStr "/**") []
  let dc := replaceSub dc (ofStr "**/") []
  replaceSub dc (ofStr "**/") []

/-- One step of the `Item::remove_test_code` scan: state is the kept lines
plus the code-fence flag. -/
def removeTestCodeStep (st : List Str × Bool) (line : Str) : List Str × Bool :=
  if startsWith line (ofStr "```") then (st.1 ++ [line], !st.2)
  else if st.2 && startsWith line (ofStr "# ") then st
  else (st.1 ++ [line], st.2)

/-- `Item::remove_test_code` from `item.rs`: drops lines starting with the
`"# "` marker while inside a code fence. -/
def remove_test_code (doc_comments : Str) : Str :=
  joinSep (ofStr "\n") ((rustLines doc_comments).foldl removeTestCodeStep ([], false)).1

/-- `Item::format_comments` from `item.rs`. -/
def format_comments (doc_comments : List Str) : Str :=
  remove_test_code (fmt_doc_comments (joinSep (ofStr "\n") (remove_extra_tokens doc_comments)))

/-- `Section` from `item.rs`. -/
structure Section where
  name : Str
  body : Str
deriving DecidableEq

/-- State of the `Section::extract_sections` line scan. -/
structure ScanState where
  sections : List Section
  current_name : Str
  current_body : List Str
  in_code_block : Bool
deriving DecidableEq

/-- One step of the `Section::extract_sections` scan, in the source's
statement order: the fence flag is toggled first (any line containing a
triple backtick), then the line is matched against the `"# "` heading
marker. -/
def extractStep (st : ScanState) (line : Str) : ScanState :=
  let fence := if (splitOnce line (ofStr "```")).isSome then !st.in_code_block
               else st.in_code_block
  match splitOnce line (ofStr "# ") with
  | some pr =>
    if !fence && !containsSub line RHAI_ITEM_INDEX_PATTERN then
      { sections := st.sections ++
          [{ name := st.current_name, body := format_comments st.current_body }],
        current_name := pr.2,
        current_body := [],
        in_code_block := fence }
    else
      { st with in_code_block := fence }
  | none =>
    { st with in_code_block := fence,
              current_body := st.current_body ++ [line ++ ofStr "\n"] }

/-- `Section::extract_sections` from `item.rs`. -/
def extract_sections (docs : Str) : List Section :=
  let st := (rustLines docs).foldl extractStep
    { sections := [], current_name := ofStr "Description",
      current_body := [], in_code_block := false }
  if st.current_body.isEmpty then st.sections
  else st.sections ++
    [{ name := st.current_name, body := format_comments st.current_body }]

/-! ## Stable sorting (`ItemsOrder::order_items` from `export.rs`) -/

/-- Lexicographic comparison of embedded strings by code point; coincides
with Rust's byte-wise `str` ordering because UTF-8 preserves code-point
order. -/
def lexLe : Str → Str → Bool
  | [], _ => true
  | _ :: _, [] => false
  | c :: cs, d :: ds =>
    if c.toNat < d.toNat then true
    else if d.toNat < c.toNat then false
    else lexLe cs ds

/-- Inserts an element into a list before the first entry it compares
less-or-equal to. -/
def insertLe (le : α → α → Bool) (x : α) : List α → List α
  | [] => [x]
  | y :: ys => if le x y then x :: y :: ys else y :: insertLe le x ys

/-- The stable sort with respect to `le` (insertion sort).  Rust's
`sort_by`/`sort_by_key` are stable, and a stable sort is extensionally
unique, so this models `Vec::sort_by` exactly. -/
def sortLe (le : α → α → Bool) : List α → List α
  | [] => []
  | x :: xs => insertLe le x (sortLe le xs)

/-- `ItemsOrder::order_items` from `export.rs` (lines 122–136): alphabetical
mode stably sorts by display name (`sort_by` on `name()`), by-index mode
stably sorts by the directive index (`sort_by_key`).  The repo's two
snapshots carry the same body over `DocItem` (`export.rs`) and `Item`
(the `module.rs` call site); it is embedded here over `Item`. -/
def order_items (order : ItemsOrder) (items : List Item) : List Item :=
  match order with
  | .Alphabetical => sortLe (fun i1 i2 => lexLe i1.itemName i2.itemName) items
  | .ByIndex => sortLe (fun i1 i2 => Nat.ble i1.itemIndex i2.itemIndex) items

/-! ## `src/module.rs` — grouping and per-module item assembly -/

/-- Appends `m` to the group keyed `key`, creating the group if absent.
Models the `HashMap` update in `group_functions` (iteration order of the
Rust map is unspecified; insertion order is used here, and no theorem
depends on it). -/
def insertGroup (gs : List (Str × List FunctionMetadata)) (key : Str)
    (m : FunctionMetadata) : List (Str × List FunctionMetadata) :=
  match gs with
  | [] => [(key, [m])]
  | (k, ms) :: rest =>
    if k == key then (k, ms ++ [m]) :: rest
    else (k, ms) :: insertGroup rest key m

/-- `group_functions` from `module.rs`: groups overloads by the normalized
name of their generated definition. -/
def group_functions (functions : List FunctionMetadata) :
    List (Str × List FunctionMetadata) :=
  functions.foldl
    (fun gs m => insertGroup gs (generate_function_definition m).defName m) []

/-- The custom-type loop of `generate_module_documentation_inner`
(`module.rs` lines 110–114): item construction propagates errors with `?`. -/
def collectCustomTypeItems (custom_types : Option (List CustomTypeMetadata))
    (options : Options) : Except Error (List (Option Item)) :=
  match custom_types with
  | some types =>
    types.foldlM (fun acc ty => do
      let it ← Item.new_custom_type ty options
      pure (acc ++ [it])) ([] : List (Option Item))
  | none => .ok []

/-- The function loop of `generate_module_documentation_inner` (`module.rs`
lines 116–122): the source's `if let Ok(doc_item) = …` pushes successful
results and silently skips errors. -/
def collectFnItems (functions : Option (List FunctionMetadata))
    (options : Options) : List (Option Item) :=
  match functions with
  | some fns =>
    (group_functions fns).foldl (fun acc g =>
      match Item.new_function g.2 g.1 options with
      | .ok it => acc ++ [it]
      | .error _ => acc) []
  | none => []

/-- The item-assembly part of `generate_module_documentation_inner` from
`module.rs` (lines 108–127): both loops, then `None` items are flattened
away (line 125) and the rest ordered (line 127). -/
def collectModuleItems (custom_types : Option (List CustomTypeMetadata))
    (functions : Option (List FunctionMetadata)) (options : Options) :
    Except Error (List Item) :=
  match collectCustomTypeItems custom_types options with
  | .error e => .error e
  | .ok tyItems =>
    .ok (order_items options.items_order
      ((tyItems ++ collectFnItems functions options).filterMap id))

/-! ## `src/doc_item.rs` — the legacy `DocItem` implementation -/

/-- `AutodocsError` from `error.rs` / `module/error.rs`. -/
inductive AutodocsError where
  | PreProcessing (msg : Str)
  | Metadata (msg : Str)
deriving DecidableEq

/-- `DocItem::find_index` from `doc_item.rs`: unlike `Item::find_index`, a
missing directive is a hard error naming the offending `namespace/name`.
(The parse-failure message embeds `ParseIntError`'s display text in Rust;
here it carries the offending digit string after the fixed message.) -/
def DocItem.find_index (name ns : Str) (doc_comments : List Str) :
    Except AutodocsError Nat :=
  match doc_comments.findSome? (fun line => rsplitOnce line RHAI_ITEM_INDEX_PATTERN) with
  | some pr =>
    match parseUsize pr.2 with
    | some n => .ok n
    | none =>
      .error (.PreProcessing (ofStr "failed to parsed order metadata: " ++ pr.2))
  | none =>
    .error (.PreProcessing
      (ofStr "missing order metadata in item " ++ ns ++ ofStr "/" ++ name))

/-! ## Spec-side definition for the refinement claim C7 -/

/-- Written from the words of claim C7 / spec section 4.2 step 1 (not from the
source): the kind a function record's *name alone* should determine —
`Operator` exactly for the fixed symbol set, otherwise getter / setter /
indexer kinds exactly for the reserved prefixes, otherwise a plain function.
Compared against `Definition.new` in the C7 theorem. -/
def specKindOfName (n : Str) : DefKind :=
  if n == ofStr "==" || n == ofStr "!=" || n == ofStr ">" || n == ofStr ">=" ||
     n == ofStr "<" || n == ofStr "<=" || n == ofStr "in" then .op
  else if startsWith n (ofStr "get$") then .get
  else if startsWith n (ofStr "set$") then .set
  else if startsWith n (ofStr "index$get$") then .indexGet
  else if startsWith n (ofStr "index$set$") then .indexSet
  else .fn

/-! ## Lemmas about the string primitives -/

theorem option_eq_none_of_isSome_false {α : Type _} {o : Option α}
    (h : o.isSome = false) : o = none := by
  cases o with
  | none => rfl
  | some a => simp at h

theorem startsWith_head {s t : Str} {c : Char}
    (h : startsWith s (c :: t) = true) : ∃ s', s = c :: s' := by
  cases s with
  | nil => simp [startsWith] at h
  | cons d s' =>
    simp only [startsWith, Bool.and_eq_true, beq_iff_eq] at h
    exact ⟨s', by rw [h.1]⟩

theorem startsWith_trans : ∀ (s p q : Str), startsWith s p = true →
    startsWith p q = true → startsWith s q = true
  | s, _, [], _, _ => by cases s <;> rfl
  | _, [], _ :: _, _, h2 => by simp [startsWith] at h2
  | s, p :: ps, q :: qs, h1, h2 => by
    obtain ⟨s', rfl⟩ := startsWith_head h1
    simp only [startsWith, Bool.and_eq_true, beq_iff_eq] at h1 h2 ⊢
    exact ⟨h2.1, startsWith_trans s' ps qs h1.2 h2.2⟩

theorem startsWith_imp_contains : ∀ (s p : Str),
    startsWith s p = true → containsSub s p = true
  | [], p, h => by
    cases p with
    | nil => rfl
    | cons c ps => simp [startsWith] at h
  | _ :: _, _, h => by simp [containsSub, h]

theorem containsSub_mono : ∀ (s p q : Str), startsWith p q = true →
    containsSub s p = true → containsSub s q = true
  | [], p, q, hpq, hs => by
    simp only [containsSub, List.isEmpty_iff] at hs
    subst hs
    cases q with
    | nil => rfl
    | cons c qs => simp [startsWith] at hpq
  | c :: s, p, q, hpq, hs => by
    simp only [containsSub, Bool.or_eq_true] at hs ⊢
    rcases hs with h | h
    · exact Or.inl (startsWith_trans _ _ _ h hpq)
    · exact Or.inr (containsSub_mono s p q hpq h)

theorem stripPre_isSome : ∀ (s p : Str), (stripPre s p).isSome = startsWith s p
  | s, [] => by cases s <;> rfl
  | [], _ :: _ => rfl
  | c :: s, p :: ps => by
    simp only [stripPre, startsWith]
    cases h : c == p with
    | true => simp [h, stripPre_isSome s ps]
    | false => simp [h]

theorem splitOnce_isSome : ∀ (s p : Str), (splitOnce s p).isSome = containsSub s p
  | [], p => by
    simp only [splitOnce, containsSub]
    cases p.isEmpty <;> simp
  | c :: t, p => by
    simp only [splitOnce, containsSub]
    cases h : startsWith (c :: t) p with
    | true => simp [h]
    | false => simp [h, Option.isSome_map, splitOnce_isSome t p]

theorem rsplitOnce_eq_none : ∀ (s p : Str),
    containsSub s p = false → rsplitOnce s p = none
  | [], p, h => by
    simp only [containsSub] at h
    simp [rsplitOnce, h]
  | c :: t, p, h => by
    simp only [containsSub, Bool.or_eq_false_iff] at h
    rw [rsplitOnce, rsplitOnce_eq_none t p h.2]
    simp [h.1]

theorem replaceSubFuel_of_not_contains : ∀ (fuel : Nat) (s p r : Str),
    containsSub s p = false → replaceSubFuel fuel s p r = s
  | 0, s, p, r, _ => rfl
  | _ + 1, s, [], r, _ => rfl
  | fuel + 1, s, p :: ps, r, h => by
    cases s with
    | nil => rfl
    | cons c t =>
      simp only [containsSub, Bool.or_eq_false_iff] at h
      rw [replaceSubFuel]
      simp only [h.1, Bool.false_eq_true, if_false]
      rw [replaceSubFuel_of_not_contains fuel t (p :: ps) r h.2]

theorem replaceSub_of_not_contains (s p r : Str)
    (h : containsSub s p = false) : replaceSub s p r = s :=
  replaceSubFuel_of_not_contains s.length s p r h

theorem joinSep_cons_of_ne_nil (sep x : Str) {l : List Str} (h : l ≠ []) :
    joinSep sep (x :: l) = x ++ sep ++ joinSep sep l := by
  cases l with
  | nil => exact absurd rfl h
  | cons y ys => rfl

theorem mem_stripCR {l : Str} {c : Char} (h : c ∈ stripCR l) : c ∈ l := by
  unfold stripCR at h
  split at h
  · rename_i t heq
    have h1 : c ∈ t := List.mem_reverse.mp h
    have h2 : c ∈ l.reverse := by
      rw [heq]
      exact List.mem_cons_of_mem _ h1
    exact List.mem_reverse.mp h2
  · exact h

theorem stripCR_of_not_mem {l : Str} (h : '\r' ∉ l) : stripCR l = l := by
  unfold stripCR
  split
  · rename_i t heq
    exact absurd (List.mem_reverse.mp (heq ▸ List.mem_cons_self '\r' t)) h
  · rfl

theorem linesAux_nil (acc : Str) : linesAux [] acc = [acc] := rfl

theorem linesAux_cons (c : Char) (rest acc : Str) :
    linesAux (c :: rest) acc =
      if c == '\n' then
        match rest with
        | [] => [stripCR acc]
        | _ :: _ => stripCR acc :: linesAux rest []
      else linesAux rest (acc ++ [c]) := rfl

theorem linesAux_ne_nil : ∀ (s acc : Str), linesAux s acc ≠ []
  | [], _ => by simp [linesAux]
  | c :: rest, acc => by
    rw [linesAux_cons]
    by_cases hc : c == '\n'
    · simp only [hc, if_true]
      cases rest <;> simp
    · simp only [hc, if_false]
      exact linesAux_ne_nil rest (acc ++ [c])

theorem joinSep_linesAux : ∀ (s acc : Str), s.getLast? ≠ some '\n' →
    '\r' ∉ s → '\r' ∉ acc →
    joinSep (ofStr "\n") (linesAux s acc) = acc ++ s
  | [], acc, _, _, _ => by simp [linesAux, joinSep]
  | c :: rest, acc, hl, hr, hra => by
    rw [linesAux_cons]
    by_cases hc : c = '\n'
    · subst hc
      simp only [beq_self_eq_true, if_true]
      cases rest with
      | nil => simp at hl
      | cons r rs =>
        rw [joinSep_cons_of_ne_nil _ _ (linesAux_ne_nil (r :: rs) [])]
        rw [stripCR_of_not_mem hra]
        rw [joinSep_linesAux (r :: rs) []
          (by rw [← List.getLast?_cons_cons]; exact hl)
          (fun hm => hr (List.mem_cons_of_mem _ hm))
          (by simp)]
        simp [ofStr]
    · have hc' : (c == '\n') = false := by simp [hc]
      simp only [hc', Bool.false_eq_true, if_false]
      rw [joinSep_linesAux rest (acc ++ [c])
        (by
          cases rest with
          | nil => simp
          | cons r rs => rw [← List.getLast?_cons_cons]; exact hl)
        (fun hm => hr (List.mem_cons_of_mem _ hm))
        (by
          intro hm
          rcases List.mem_append.mp hm with h | h
          · exact hra h
          · exact hr (by simp at h; rw [h]; exact List.mem_cons_self _ _))]
      simp

theorem not_newline_mem_linesAux : ∀ (s acc : Str) (l : Str),
    l ∈ linesAux s acc → '\n' ∉ acc → '\n' ∉ l
  | [], acc, l, hm, hacc => by
    simp [linesAux] at hm
    rwa [hm]
  | c :: rest, acc, l, hm, hacc => by
    rw [linesAux_cons] at hm
    by_cases hc : c = '\n'
    · subst hc
      simp only [beq_self_eq_true, if_true] at hm
      cases rest with
      | nil =>
        simp at hm
        rw [hm]
        exact fun hmem => hacc (mem_stripCR hmem)
      | cons r rs =>
        rcases List.mem_cons.mp hm with h | h
        · rw [h]
          exact fun hmem => hacc (mem_stripCR hmem)
        · exact not_newline_mem_linesAux (r :: rs) [] l h (by simp)
    · have hc' : (c == '\n') = false := by simp [hc]
      rw [hc'] at hm
      simp only [Bool.false_eq_true, if_false] at hm
      exact not_newline_mem_linesAux rest (acc ++ [c]) l hm
        (by
          intro hmem
          rcases List.mem_append.mp hmem with h | h
          · exact hacc h
          · simp at h; exact hc h.symm)

theorem mem_linesAux_subset : ∀ (s acc : Str) (l : Str) (c : Char),
    l ∈ linesAux s acc → c ∈ l → c ∈ acc ∨ c ∈ s
  | [], acc, l, c, hm, hc => by
    simp [linesAux] at hm
    exact Or.inl (hm ▸ hc)
  | d :: rest, acc, l, c, hm, hc => by
    rw [linesAux_cons] at hm
    by_cases hd : d = '\n'
    · subst hd
      simp only [beq_self_eq_true, if_true] at hm
      cases rest with
      | nil =>
        simp at hm
        exact Or.inl (mem_stripCR (hm ▸ hc))
      | cons r rs =>
        rcases List.mem_cons.mp hm with h | h
        · exact Or.inl (mem_stripCR (h ▸ hc))
        · rcases mem_linesAux_subset (r :: rs) [] l c h hc with h' | h'
          · simp at h'
          · exact Or.inr (List.mem_cons_of_mem _ h')
    · have hd' : (d == '\n') = false := by simp [hd]
      rw [hd'] at hm
      simp only [Bool.false_eq_true, if_false] at hm
      rcases mem_linesAux_subset rest (acc ++ [d]) l c hm hc with h' | h'
      · rcases List.mem_append.mp h' with h | h
        · exact Or.inl h
        · simp at h
          exact Or.inr (h ▸ List.mem_cons_self _ _)
      · exact Or.inr (List.mem_cons_of_mem _ h')

theorem joinSep_rustLines (s : Str) (hl : s.getLast? ≠ some '\n')
    (hr : '\r' ∉ s) : joinSep (ofStr "\n") (rustLines s) = s := by
  cases s with
  | nil => rfl
  | cons c t =>
    rw [rustLines]
    exact joinSep_linesAux (c :: t) [] hl hr (by simp)

theorem rustLines_ne_nil {s : Str} (h : s ≠ []) : rustLines s ≠ [] := by
  cases s with
  | nil => exact absurd rfl h
  | cons c t => exact linesAux_ne_nil (c :: t) []

theorem not_newline_mem_rustLines {s l : Str} (hm : l ∈ rustLines s) :
    '\n' ∉ l := by
  cases s with
  | nil => simp [rustLines] at hm
  | cons c t =>
    rw [rustLines] at hm
    exact not_newline_mem_linesAux (c :: t) [] l hm (by simp)

theorem mem_rustLines_subset {s l : Str} {c : Char} (hm : l ∈ rustLines s)
    (hc : c ∈ l) : c ∈ s := by
  cases s with
  | nil => simp [rustLines] at hm
  | cons d t =>
    rw [rustLines] at hm
    rcases mem_linesAux_subset (d :: t) [] l c hm hc with h | h
    · simp at h
    · exact h

theorem linesAux_append_newline : ∀ (l acc : Str), '\n' ∉ l →
    linesAux (l ++ ofStr "\n") acc = [stripCR (acc ++ l)]
  | [], acc, _ => by simp [ofStr, linesAux]
  | c :: l, acc, h => by
    have hc : ¬ (c = '\n') := fun he => h (he ▸ List.mem_cons_self _ _)
    have hc' : (c == '\n') = false := by simp [hc]
    rw [List.cons_append, linesAux_cons]
    rw [hc']
    simp only [Bool.false_eq_true, if_false]
    rw [linesAux_append_newline l (acc ++ [c])
      (fun hm => h (List.mem_cons_of_mem _ hm))]
    simp

theorem rustLines_append_newline (l : Str) (h : '\n' ∉ l) :
    rustLines (l ++ ofStr "\n") = [stripCR l] := by
  cases l with
  | nil => simp [ofStr, rustLines, linesAux]
  | cons c t =>
    rw [List.cons_append, rustLines]
    rw [← List.cons_append, linesAux_append_newline (c :: t) [] h]
    simp

/-! ## Lemmas about the comment-processing pipeline -/

theorem removeTestCode_foldl_keep : ∀ (lines acc : List Str) (fence : Bool),
    (∀ l ∈ lines, startsWith l (ofStr "# ") = false) →
    ((lines.foldl removeTestCodeStep (acc, fence)).1 = acc ++ lines)
  | [], acc, fence, _ => by simp
  | l :: rest, acc, fence, h => by
    have hl := h l (List.mem_cons_self _ _)
    have hrest := fun x hx => h x (List.mem_cons_of_mem _ hx)
    rw [List.foldl_cons]
    by_cases hb : startsWith l (ofStr "```") = true
    · rw [show removeTestCodeStep (acc, fence) l = (acc ++ [l], !fence) by
        unfold removeTestCodeStep; simp [hb]]
      rw [removeTestCode_foldl_keep rest (acc ++ [l]) (!fence) hrest]
      simp
    · rw [show removeTestCodeStep (acc, fence) l = (acc ++ [l], fence) by
        unfold removeTestCodeStep; simp [hb, hl]]
      rw [removeTestCode_foldl_keep rest (acc ++ [l]) fence hrest]
      simp

theorem remove_test_code_of_no_heading (s : Str)
    (hl : s.getLast? ≠ some '\n') (hr : '\r' ∉ s)
    (h : ∀ l ∈ rustLines s, startsWith l (ofStr "# ") = false) :
    remove_test_code s = s := by
  unfold remove_test_code
  rw [removeTestCode_foldl_keep (rustLines s) [] false h]
  rw [List.nil_append]
  exact joinSep_rustLines s hl hr

theorem remove_extra_tokens_of_clean_lines : ∀ (lines : List Str),
    (∀ l ∈ lines, '\n' ∉ l ∧ '\r' ∉ l ∧ containsSub l (ofStr "# ") = false) →
    remove_extra_tokens (lines.map (fun l => l ++ ofStr "\n")) = lines
  | [], _ => rfl
  | l :: rest, h => by
    have hl := h l (List.mem_cons_self _ _)
    have hrest := fun x hx => h x (List.mem_cons_of_mem _ hx)
    have hpat : containsSub l RHAI_ITEM_INDEX_PATTERN = false := by
      cases hc : containsSub l RHAI_ITEM_INDEX_PATTERN with
      | false => rfl
      | true =>
        have := containsSub_mono l RHAI_ITEM_INDEX_PATTERN (ofStr "# ")
          (by decide) hc
        rw [hl.2.2] at this
        exact absurd this (by simp)
    unfold remove_extra_tokens at *
    rw [List.map_cons, List.map_cons]
    congr 1
    · rw [rustLines_append_newline l hl.1, stripCR_of_not_mem hl.2.1]
      rw [List.filter_cons]
      simp only [hpat, Bool.not_false, if_true, List.filter_nil]
      rfl
    · exact remove_extra_tokens_of_clean_lines rest hrest

theorem fmt_doc_comments_of_clean (s : Str)
    (h3 : containsSub s (ofStr "///") = false)
    (h4 : containsSub s (ofStr "/**") = false)
    (h5 : containsSub s (ofStr "**/") = false) :
    fmt_doc_comments s = s := by
  have h2 : containsSub s (ofStr "/// ") = false := by
    cases hc : containsSub s (ofStr "/// ") with
    | false => rfl
    | true =>
      have := containsSub_mono s (ofStr "/// ") (ofStr "///") (by decide) hc
      rw [h3] at this
      exact absurd this (by simp)
  unfold fmt_doc_comments
  show replaceSub (replaceSub (replaceSub (replaceSub
      (replaceSub s (ofStr "/// ") []) (ofStr "///") []) (ofStr "/**") [])
      (ofStr "**/") []) (ofStr "**/") [] = s
  rw [replaceSub_of_not_contains _ _ _ h2, replaceSub_of_not_contains _ _ _ h3,
    replaceSub_of_not_contains _ _ _ h4, replaceSub_of_not_contains _ _ _ h5,
    replaceSub_of_not_contains _ _ _ h5]

theorem extractStep_no_heading (st : ScanState) (l : Str)
    (hl : containsSub l (ofStr "# ") = false) :
    extractStep st l =
      { st with
        in_code_block := if (splitOnce l (ofStr "```")).isSome then
            !st.in_code_block else st.in_code_block,
        current_body := st.current_body ++ [l ++ ofStr "\n"] } := by
  have hsplit : splitOnce l (ofStr "# ") = none := by
    apply option_eq_none_of_isSome_false
    rw [splitOnce_isSome]
    exact hl
  unfold extractStep
  rw [hsplit]

theorem extract_foldl_no_heading : ∀ (lines : List Str) (st : ScanState),
    (∀ l ∈ lines, containsSub l (ofStr "# ") = false) →
    ∃ b, lines.foldl extractStep st =
      { sections := st.sections, current_name := st.current_name,
        current_body := st.current_body ++ lines.map (fun l => l ++ ofStr "\n"),
        in_code_block := b }
  | [], st, _ => ⟨st.in_code_block, by simp⟩
  | l :: rest, st, h => by
    rw [List.foldl_cons, extractStep_no_heading st l (h l (List.mem_cons_self _ _))]
    obtain ⟨b, hb⟩ := extract_foldl_no_heading rest _
      (fun x hx => h x (List.mem_cons_of_mem _ hx))
    refine ⟨b, ?_⟩
    rw [hb]
    simp

theorem format_comments_of_clean (s : Str)
    (hl : s.getLast? ≠ some '\n') (hr : '\r' ∉ s)
    (hh : ∀ l ∈ rustLines s, containsSub l (ofStr "# ") = false)
    (h3 : containsSub s (ofStr "///") = false)
    (h4 : containsSub s (ofStr "/**") = false)
    (h5 : containsSub s (ofStr "**/") = false) :
    format_comments ((rustLines s).map (fun l => l ++ ofStr "\n")) = s := by
  have hclean : ∀ l ∈ rustLines s,
      '\n' ∉ l ∧ '\r' ∉ l ∧ containsSub l (ofStr "# ") = false :=
    fun l hm => ⟨not_newline_mem_rustLines hm,
      fun hc => hr (mem_rustLines_subset hm hc), hh l hm⟩
  unfold format_comments
  rw [remove_extra_tokens_of_clean_lines (rustLines s) hclean]
  rw [joinSep_rustLines s hl hr]
  rw [fmt_doc_comments_of_clean s h3 h4 h5]
  refine remove_test_code_of_no_heading s hl hr (fun l hm => ?_)
  cases hsw : startsWith l (ofStr "# ") with
  | false => rfl
  | true =>
    have := startsWith_imp_contains l _ hsw
    rw [hh l hm] at this
    exact absurd this (by simp)

theorem extract_sections_of_clean (s : Str) (hne : s ≠ [])
    (hl : s.getLast? ≠ some '\n') (hr : '\r' ∉ s)
    (hh : ∀ l ∈ rustLines s, containsSub l (ofStr "# ") = false)
    (h3 : containsSub s (ofStr "///") = false)
    (h4 : containsSub s (ofStr "/**") = false)
    (h5 : containsSub s (ofStr "**/") = false) :
    extract_sections s = [{ name := ofStr "Description", body := s }] := by
  unfold extract_sections
  obtain ⟨b, hb⟩ := extract_foldl_no_heading (rustLines s)
    { sections := [], current_name := ofStr "Description",
      current_body := [], in_code_block := false } hh
  rw [hb]
  have hmne : (rustLines s).map (fun l => l ++ ofStr "\n") ≠ [] := by
    simp [rustLines_ne_nil hne]
  simp only [List.nil_append]
  rw [show ((rustLines s).map (fun l => l ++ ofStr "\n")).isEmpty = false by
    simp [List.isEmpty_iff, hmne]]
  simp only [Bool.false_eq_true, if_false, List.nil_append]
  rw [format_comments_of_clean s hl hr hh h3 h4 h5]

/-! ## Lemmas about lexicographic comparison and the stable sort -/

theorem lexLe_cons_iff {x y : Char} {xs ys : Str} :
    lexLe (x :: xs) (y :: ys) = true ↔
      (x.toNat < y.toNat ∨ (x.toNat = y.toNat ∧ lexLe xs ys = true)) := by
  show (if x.toNat < y.toNat then true
        else if y.toNat < x.toNat then false else lexLe xs ys) = true ↔ _
  by_cases h1 : x.toNat < y.toNat
  · rw [if_pos h1]
    simp [h1]
  · rw [if_neg h1]
    by_cases h2 : y.toNat < x.toNat
    · rw [if_pos h2]
      constructor
      · intro h
        exact absurd h (by simp)
      · intro h
        exfalso
        rcases h with h | ⟨he, _⟩
        · omega
        · omega
    · rw [if_neg h2]
      have heq : x.toNat = y.toNat := by omega
      constructor
      · intro h
        exact Or.inr ⟨heq, h⟩
      · intro h
        rcases h with h | ⟨_, hl⟩
        · omega
        · exact hl

theorem lexLe_refl : ∀ (s : Str), lexLe s s = true
  | [] => rfl
  | c :: cs => by
    rw [lexLe_cons_iff]
    exact Or.inr ⟨rfl, lexLe_refl cs⟩

theorem lexLe_total : ∀ (a b : Str), lexLe a b = true ∨ lexLe b a = true
  | [], _ => Or.inl rfl
  | _ :: _, [] => Or.inr rfl
  | x :: xs, y :: ys => by
    rw [lexLe_cons_iff, lexLe_cons_iff]
    rcases Nat.lt_trichotomy x.toNat y.toNat with h | h | h
    · exact Or.inl (Or.inl h)
    · rcases lexLe_total xs ys with h' | h'
      · exact Or.inl (Or.inr ⟨h, h'⟩)
      · exact Or.inr (Or.inr ⟨h.symm, h'⟩)
    · exact Or.inr (Or.inl h)

theorem lexLe_trans : ∀ (a b c : Str), lexLe a b = true → lexLe b c = true →
    lexLe a c = true
  | [], _, _, _, _ => rfl
  | _ :: _, [], _, h1, _ => by simp [lexLe] at h1
  | _ :: _, _ :: _, [], _, h2 => by simp [lexLe] at h2
  | x :: xs, y :: ys, z :: zs, h1, h2 => by
    rw [lexLe_cons_iff] at h1 h2 ⊢
    rcases h1 with h1 | ⟨h1e, h1l⟩ <;> rcases h2 with h2 | ⟨h2e, h2l⟩
    · exact Or.inl (by omega)
    · exact Or.inl (by omega)
    · exact Or.inl (by omega)
    · exact Or.inr ⟨by omega, lexLe_trans xs ys zs h1l h2l⟩

theorem lexLe_antisymm : ∀ (a b : Str), lexLe a b = true → lexLe b a = true →
    a = b
  | [], [], _, _ => rfl
  | [], _ :: _, _, h2 => by simp [lexLe] at h2
  | _ :: _, [], h1, _ => by simp [lexLe] at h1
  | x :: xs, y :: ys, h1, h2 => by
    rw [lexLe_cons_iff] at h1 h2
    rcases h1 with h1 | ⟨h1e, h1l⟩ <;> rcases h2 with h2 | ⟨h2e, h2l⟩
    · omega
    · omega
    · omega
    · have hx : x = y := Char.eq_of_val_eq (UInt32.toNat.inj h1e)
      rw [hx, lexLe_antisymm xs ys h1l h2l]

theorem insertLe_perm {α : Type _} (le : α → α → Bool) (x : α) :
    ∀ (l : List α), List.Perm (insertLe le x l) (x :: l)
  | [] => List.Perm.refl _
  | y :: ys => by
    rw [insertLe]
    by_cases h : le x y = true
    · rw [if_pos h]
    · rw [if_neg h]
      exact ((insertLe_perm le x ys).cons y).trans (List.Perm.swap x y ys)

theorem sortLe_perm {α : Type _} (le : α → α → Bool) :
    ∀ (l : List α), List.Perm (sortLe le l) l
  | [] => List.Perm.refl _
  | x :: xs => (insertLe_perm le x (sortLe le xs)).trans ((sortLe_perm le xs).cons x)

theorem mem_insertLe {α : Type _} {le : α → α → Bool} {x a : α} {l : List α} :
    a ∈ insertLe le x l ↔ a = x ∨ a ∈ l := by
  rw [(insertLe_perm le x l).mem_iff, List.mem_cons]

theorem pairwise_insertLe {α : Type _} {le : α → α → Bool}
    (htrans : ∀ a b c, le a b = true → le b c = true → le a c = true)
    (htotal : ∀ a b, le a b = true ∨ le b a = true) (x : α) :
    ∀ {l : List α}, l.Pairwise (fun a b => le a b = true) →
      (insertLe le x l).Pairwise (fun a b => le a b = true)
  | [], _ => by simp [insertLe]
  | y :: ys, h => by
    rw [insertLe]
    by_cases hxy : le x y = true
    · rw [if_pos hxy]
      refine List.Pairwise.cons (fun z hz => ?_) h
      rcases List.mem_cons.mp hz with rfl | hz
      · exact hxy
      · exact htrans x y z hxy (List.rel_of_pairwise_cons h hz)
    · rw [if_neg hxy]
      have hyx : le y x = true := (htotal x y).resolve_left hxy
      refine List.Pairwise.cons (fun z hz => ?_) (pairwise_insertLe htrans htotal x h.tail)
      rcases mem_insertLe.mp hz with rfl | hz
      · exact hyx
      · exact List.rel_of_pairwise_cons h hz

theorem pairwise_sortLe {α : Type _} {le : α → α → Bool}
    (htrans : ∀ a b c, le a b = true → le b c = true → le a c = true)
    (htotal : ∀ a b, le a b = true ∨ le b a = true) :
    ∀ (l : List α), (sortLe le l).Pairwise (fun a b => le a b = true)
  | [] => List.Pairwise.nil
  | x :: xs => pairwise_insertLe htrans htotal x (pairwise_sortLe htrans htotal xs)

theorem filter_insertLe_pos {α : Type _} {le : α → α → Bool} (p : α → Bool)
    {x : α} (hpx : p x = true) :
    ∀ {l : List α}, (∀ z ∈ l, p z = true → le x z = true) →
      (insertLe le x l).filter p = x :: l.filter p
  | [], _ => by simp [insertLe, hpx]
  | y :: ys, hall => by
    rw [insertLe]
    by_cases hxy : le x y = true
    · rw [if_pos hxy]
      simp [List.filter_cons, hpx]
    · rw [if_neg hxy]
      cases hpy : p y with
      | true => exact absurd (hall y (List.mem_cons_self _ _) hpy) hxy
      | false =>
        rw [List.filter_cons_of_neg (by simp [hpy]),
          List.filter_cons_of_neg (by simp [hpy])]
        exact filter_insertLe_pos p hpx
          (fun z hz hpz => hall z (List.mem_cons_of_mem _ hz) hpz)

theorem filter_insertLe_neg {α : Type _} {le : α → α → Bool} (p : α → Bool)
    {x : α} (hpx : p x = false) :
    ∀ (l : List α), (insertLe le x l).filter p = l.filter p
  | [] => by simp [insertLe, hpx]
  | y :: ys => by
    rw [insertLe]
    by_cases hxy : le x y = true
    · rw [if_pos hxy]
      simp [List.filter_cons, hpx]
    · rw [if_neg hxy]
      rw [List.filter_cons, List.filter_cons, filter_insertLe_neg p hpx ys]

theorem filter_sortLe {α : Type _} {le : α → α → Bool} (p : α → Bool)
    (htied : ∀ a b, p a = true → p b = true → le a b = true) :
    ∀ (l : List α), (sortLe le l).filter p = l.filter p
  | [] => rfl
  | x :: xs => by
    rw [sortLe]
    cases hpx : p x with
    | false =>
      rw [filter_insertLe_neg p hpx, filter_sortLe p htied xs,
        List.filter_cons_of_neg (by simp [hpx])]
    | true =>
      rw [filter_insertLe_pos p hpx (fun z _ hpz => htied x z hpx hpz),
        filter_sortLe p htied xs, List.filter_cons_of_pos hpx]

theorem sortLe_eq_of_perm {α : Type _} {le : α → α → Bool}
    (htrans : ∀ a b c, le a b = true → le b c = true → le a c = true)
    (htotal : ∀ a b, le a b = true ∨ le b a = true)
    {l₁ l₂ : List α} (hp : List.Perm l₁ l₂)
    (w : ∀ a b, a ∈ l₁ → b ∈ l₁ → le a b = true → le b a = true → a = b) :
    sortLe le l₁ = sortLe le l₂ := by
  refine @List.Perm.eq_of_sorted _ (fun a b => le a b = true) _ _ ?_ ?_ ?_ ?_
  · intro a b ha hb hab hba
    exact w a b ((sortLe_perm le l₁).subset ha)
      (hp.symm.subset ((sortLe_perm le l₂).subset hb)) hab hba
  · exact pairwise_sortLe htrans htotal l₁
  · exact pairwise_sortLe htrans htotal l₂
  · exact ((sortLe_perm le l₁).trans hp).trans (sortLe_perm le l₂).symm

/-! ## Helper lemmas for the claim theorems -/

theorem beq_comm_of_lawful {α : Type _} [BEq α] [LawfulBEq α] [DecidableEq α]
    (a b : α) : (a == b) = (b == a) := by
  by_cases h : a = b
  · subst h; rfl
  · rw [beq_false_of_ne h, beq_false_of_ne (fun he => h he.symm)]

theorem is_operator_eq_spec_list (n : Str) :
    is_operator n =
      (n == ofStr "==" || n == ofStr "!=" || n == ofStr ">" || n == ofStr ">=" ||
       n == ofStr "<" || n == ofStr "<=" || n == ofStr "in") := by
  unfold is_operator
  simp only [List.any_cons, List.any_nil, Bool.or_false]
  rw [beq_comm_of_lawful (ofStr "==") n, beq_comm_of_lawful (ofStr "!=") n,
    beq_comm_of_lawful (ofStr ">") n, beq_comm_of_lawful (ofStr ">=") n,
    beq_comm_of_lawful (ofStr "<") n, beq_comm_of_lawful (ofStr "<=") n,
    beq_comm_of_lawful (ofStr "in") n]
  simp [Bool.or_assoc]

theorem startsWith_ne_first {l : Str} {c d : Char} {p q : Str}
    (h : startsWith l (c :: p) = true) (hne : ¬ (c = d)) :
    startsWith l (d :: q) = false := by
  obtain ⟨t, rfl⟩ := startsWith_head h
  simp only [startsWith, Bool.and_eq_true, Bool.and_eq_false_iff]
  left
  simp [hne]

theorem not_heading_of_brace {line : Str}
    (h : startsWith line (ofStr "#\x7b") = true) :
    startsWith line (ofStr "# ") = false := by
  have h' : startsWith line ('#' :: ('\x7b' :: [])) = true := h
  obtain ⟨t, rfl⟩ := startsWith_head h'
  simp only [startsWith, Bool.and_eq_true, beq_iff_eq] at h'
  obtain ⟨t', rfl⟩ := startsWith_head h'.2
  show startsWith ('#' :: '\x7b' :: t') ('#' :: (' ' :: [])) = false
  simp [startsWith]

theorem find_index_eq_none : ∀ (docs : List Str),
    (∀ l ∈ docs, containsSub l RHAI_ITEM_INDEX_PATTERN = false) →
    Item.find_index docs = .ok none
  | [], _ => rfl
  | l :: rest, h => by
    rw [Item.find_index, rsplitOnce_eq_none l _ (h l (List.mem_cons_self _ _))]
    exact find_index_eq_none rest (fun x hx => h x (List.mem_cons_of_mem _ hx))

theorem new_function_undocumented (metadata : List FunctionMetadata)
    (name : Str) (opts : Options)
    (h : ∀ m ∈ metadata, m.doc_comments = none) :
    Item.new_function metadata name opts = .ok none := by
  unfold Item.new_function
  rw [List.find?_eq_none.mpr (fun x hx => by rw [h x hx]; simp)]

theorem insertGroup_mem_preserve (P : FunctionMetadata → Prop) :
    ∀ (gs : List (Str × List FunctionMetadata)) (key : Str) (m : FunctionMetadata),
    (∀ g ∈ gs, ∀ x ∈ g.2, P x) → P m →
    ∀ g ∈ insertGroup gs key m, ∀ x ∈ g.2, P x
  | [], key, m, _, hm => by
    intro g hg x hx
    rw [insertGroup] at hg
    rcases List.mem_singleton.mp hg with rfl
    rw [List.mem_singleton.mp hx]
    exact hm
  | (k, ms) :: rest, key, m, hgs, hm => by
    rw [insertGroup]
    by_cases hk : (k == key) = true
    · rw [if_pos hk]
      intro g hg x hx
      rcases List.mem_cons.mp hg with rfl | hg
      · rcases List.mem_append.mp hx with hx | hx
        · exact hgs (k, ms) (List.mem_cons_self _ _) x hx
        · rw [List.mem_singleton.mp hx]
          exact hm
      · exact hgs g (List.mem_cons_of_mem _ hg) x hx
    · rw [if_neg hk]
      intro g hg x hx
      rcases List.mem_cons.mp hg with rfl | hg
      · exact hgs (k, ms) (List.mem_cons_self _ _) x hx
      · exact insertGroup_mem_preserve P rest key m
          (fun g' hg' => hgs g' (List.mem_cons_of_mem _ hg')) hm g hg x hx

theorem groupFold_mem_preserve (P : FunctionMetadata → Prop) :
    ∀ (fns : List FunctionMetadata) (gs : List (Str × List FunctionMetadata)),
    (∀ m ∈ fns, P m) → (∀ g ∈ gs, ∀ x ∈ g.2, P x) →
    ∀ g ∈ fns.foldl
      (fun gs m => insertGroup gs (generate_function_definition m).defName m) gs,
      ∀ x ∈ g.2, P x
  | [], gs, _, hgs => by
    intro g hg
    exact hgs g hg
  | m :: rest, gs, hfns, hgs => by
    rw [List.foldl_cons]
    exact groupFold_mem_preserve P rest _
      (fun x hx => hfns x (List.mem_cons_of_mem _ hx))
      (insertGroup_mem_preserve P gs _ m hgs (hfns m (List.mem_cons_self _ _)))

theorem group_functions_mem_preserve (P : FunctionMetadata → Prop)
    (fns : List FunctionMetadata) (h : ∀ m ∈ fns, P m) :
    ∀ g ∈ group_functions fns, ∀ x ∈ g.2, P x := by
  unfold group_functions
  exact groupFold_mem_preserve P fns [] h (by simp)

theorem fnGroups_fold_nones (opts : Options) :
    ∀ (groups : List (Str × List FunctionMetadata)) (acc : List (Option Item)),
    (∀ g ∈ groups, Item.new_function g.2 g.1 opts = .ok none) →
    groups.foldl (fun acc g =>
        match Item.new_function g.2 g.1 opts with
        | .ok it => acc ++ [it]
        | .error _ => acc) acc =
      acc ++ groups.map (fun _ => (none : Option Item))
  | [], acc, _ => by simp
  | g :: rest, acc, h => by
    rw [List.foldl_cons, h g (List.mem_cons_self _ _)]
    rw [fnGroups_fold_nones opts rest (acc ++ [none])
      (fun x hx => h x (List.mem_cons_of_mem _ hx))]
    simp

/-! ## Claim theorems -/

/-- C1: the spec states that an absent or unit return type is omitted from
the synthesized signature, with `get$age` over one `MyType` parameter
rendering exactly as `get MyType.age`.  The code disagrees: at that very
input `Definition::display` appends a stray closing parenthesis (the
`map_or(")".to_string(), …)` default of the `Get`/`Operator`/`IndexGet`
arms, a leftover of an older string-builder that had an open paren), so the
rendered signature is `get MyType.age)`.  This theorem evaluates the
embedded code at the claim's input, exhibiting the divergence. -/
theorem claim_C1 :
    Definition.display (Definition.new (ofStr "get$age")
      [{ pname := some (ofStr "a"), ptype := some (ofStr "MyType") }] none) =
    ofStr "get MyType.age)" := by decide

/-- C2 counterexample: two *distinct* items sharing the display name `a`.
Alphabetical ordering is a stable sort, so the two permuted inputs keep
their (different) discovery orders and the outputs differ — refuting the
claim's "permuted-but-otherwise-identical input yields the same output
list" for inputs with equal-named distinct items. -/
theorem claim_C2_counterexample :
    order_items .Alphabetical
      [Item.CustomType
        { type_name := ofStr "T", display_name := ofStr "a", doc_comments := none } 0,
       Item.CustomType
        { type_name := ofStr "U", display_name := ofStr "a", doc_comments := none } 0] ≠
    order_items .Alphabetical
      [Item.CustomType
        { type_name := ofStr "U", display_name := ofStr "a", doc_comments := none } 0,
       Item.CustomType
        { type_name := ofStr "T", display_name := ofStr "a", doc_comments := none } 0] := by
  decide

/-- C2 (amended): alphabetical ordering (1) returns a list sorted by item
display name, (2) keeps items of equal display name in their discovery
order (stable sort, stated as preservation of every equal-name fibre), and
(3) yields the same output on a permuted-but-otherwise-identical input
*provided* items sharing a display name are equal (the proviso the
counterexample forces). -/
theorem claim_C2 :
    (∀ items : List Item, (order_items .Alphabetical items).Pairwise
        (fun i1 i2 => lexLe i1.itemName i2.itemName = true))
    ∧ (∀ (items : List Item) (nm : Str),
        (order_items .Alphabetical items).filter (fun i => i.itemName == nm) =
          items.filter (fun i => i.itemName == nm))
    ∧ (∀ (items₁ items₂ : List Item), List.Perm items₁ items₂ →
        (∀ a ∈ items₁, ∀ b ∈ items₁, a.itemName = b.itemName → a = b) →
        order_items .Alphabetical items₁ = order_items .Alphabetical items₂) := by
  have htrans : ∀ (a b c : Item), lexLe a.itemName b.itemName = true →
      lexLe b.itemName c.itemName = true → lexLe a.itemName c.itemName = true :=
    fun a b c => lexLe_trans _ _ _
  have htotal : ∀ (a b : Item), lexLe a.itemName b.itemName = true ∨
      lexLe b.itemName a.itemName = true :=
    fun a b => lexLe_total _ _
  refine ⟨?_, ?_, ?_⟩
  · intro items
    exact pairwise_sortLe htrans htotal items
  · intro items nm
    refine filter_sortLe _ (fun a b hpa hpb => ?_) items
    have ha : a.itemName = nm := by simpa using hpa
    have hb : b.itemName = nm := by simpa using hpb
    rw [ha, hb]
    exact lexLe_refl nm
  · intro l₁ l₂ hp hinj
    exact sortLe_eq_of_perm htrans htotal hp (fun a b ha hb hab hba =>
      hinj a ha b hb (lexLe_antisymm _ _ hab hba))

/-- C2 witness: the permutation-invariance part of the amended claim at a
concrete two-element input with distinct display names. -/
theorem claim_C2_witness :
    order_items .Alphabetical
      [Item.CustomType
        { type_name := ofStr "T", display_name := ofStr "b", doc_comments := none } 0,
       Item.CustomType
        { type_name := ofStr "U", display_name := ofStr "a", doc_comments := none } 0] =
    order_items .Alphabetical
      [Item.CustomType
        { type_name := ofStr "U", display_name := ofStr "a", doc_comments := none } 0,
       Item.CustomType
        { type_name := ofStr "T", display_name := ofStr "b", doc_comments := none } 0] :=
  claim_C2.2.2 _ _ (List.Perm.swap _ _ _) (by decide)

/-- C3 counterexample: in by-index mode, a documented non-anonymous
single-overload group whose comments carry no ordering directive yields
`Ok(None)` from `Item::new_function` — no error is raised and the item is
silently dropped, contradicting the claimed hard error. -/
theorem claim_C3_counterexample :
    Item.new_function
      [{ name := ofStr "my_func", params := none, return_type := none,
         doc_comments := some [ofStr "Some docs."] }]
      (ofStr "my_func")
      { items_order := .ByIndex, sections_format := .Rust,
        include_standard_packages := false } = .ok none := by decide

/-- C3 (amended): in by-index mode the current `Item` implementation
silently omits a retained documented item whose comments contain no
ordering directive — `Item::find_index` returns `Ok(None)` and
`Item::new_function` returns `Ok(None)`, no error; only the legacy
`DocItem::find_index` path fails with an error naming the offending
`namespace/name`. -/
theorem claim_C3 (docs : List Str)
    (hnd : ∀ l ∈ docs, containsSub l RHAI_ITEM_INDEX_PATTERN = false) :
    (Item.find_index docs = .ok none)
    ∧ (∀ (metadata : List FunctionMetadata) (root : FunctionMetadata)
          (name : Str) (opts : Options),
        metadata.find? (fun m => m.doc_comments.isSome) = some root →
        root.doc_comments = some docs →
        startsWith name (ofStr "anon$") = false →
        opts.items_order = .ByIndex →
        Item.new_function metadata name opts = .ok none)
    ∧ (∀ (name ns : Str),
        DocItem.find_index name ns docs =
          .error (.PreProcessing (ofStr "missing order metadata in item "
            ++ ns ++ ofStr "/" ++ name))) := by
  have hfi : Item.find_index docs = .ok none := find_index_eq_none docs hnd
  refine ⟨hfi, ?_, ?_⟩
  · intro metadata root name opts hfind hroot hanon horder
    unfold Item.new_function
    rw [hfind]
    rw [hanon]
    simp only [Bool.not_false, if_true]
    rw [horder]
    simp only [beq_self_eq_true, if_true]
    rw [hroot]
    show (match Item.find_index docs with
          | Except.error e => (Except.error e : Except Error (Option Item))
          | Except.ok none => Except.ok none
          | Except.ok (some index) =>
            Except.ok (some (Item.Function root metadata name index))) =
      Except.ok none
    rw [hfi]
  · intro name ns
    unfold DocItem.find_index
    rw [List.findSome?_eq_none_iff.mpr
      (fun l hl => rsplitOnce_eq_none l _ (hnd l hl))]

/-- C3 witness: the amended claim applied to the one-line comment block
`["hello"]`. -/
theorem claim_C3_witness :
    Item.find_index [ofStr "hello"] = .ok none
    ∧ Item.new_function
        [{ name := ofStr "f", params := none, return_type := none,
           doc_comments := some [ofStr "hello"] }] (ofStr "f")
        { items_order := .ByIndex, sections_format := .Rust,
          include_standard_packages := false } = .ok none
    ∧ DocItem.find_index (ofStr "f") (ofStr "global") [ofStr "hello"] =
        .error (.PreProcessing (ofStr "missing order metadata in item "
          ++ ofStr "global" ++ ofStr "/" ++ ofStr "f")) := by
  obtain ⟨h1, h2, h3⟩ := claim_C3 [ofStr "hello"] (by decide)
  exact ⟨h1,
    h2 _ { name := ofStr "f", params := none, return_type := none,
           doc_comments := some [ofStr "hello"] } _ _ (by decide) rfl
      (by decide) rfl,
    h3 (ofStr "f") (ofStr "global")⟩

/-- C4 counterexample: the line `# ``` x` contains both a fence marker and
the heading marker.  It is reached while the fence opened by the first line
is still open, yet the scanner toggles the fence *first* (`split_once`
finds the backticks anywhere in the line) and then treats the same line as
a heading, pushing the current section and opening a new one named
`` ``` x`` — refuting "never starts a new section at a line that occurs
while the code-fence state is true". -/
theorem claim_C4_counterexample :
    extract_sections (ofStr "```\n# ``` x\nhello") =
      [{ name := ofStr "Description", body := ofStr "```" },
       { name := ofStr "``` x", body := ofStr "hello" }] := by decide

/-- C4 (amended): a heading-marker line that does not itself contain a
code-fence marker never pushes the current section nor opens a new one
while the fence state is true; only a line containing both markers can
close the fence and immediately start a section. -/
theorem claim_C4 (st : ScanState) (line : Str)
    (hf : st.in_code_block = true)
    (hh : containsSub line (ofStr "# ") = true)
    (hb : containsSub line (ofStr "```") = false) :
    (extractStep st line).sections = st.sections
    ∧ (extractStep st line).current_name = st.current_name := by
  have hsp : (splitOnce line (ofStr "```")).isSome = false := by
    rw [splitOnce_isSome]; exact hb
  have hhp : (splitOnce line (ofStr "# ")).isSome = true := by
    rw [splitOnce_isSome]; exact hh
  obtain ⟨pr, hpr⟩ := Option.isSome_iff_exists.mp hhp
  unfold extractStep
  rw [hpr, hsp]
  simp [hf]

/-- C4 witness: the amended claim at a concrete open-fence state and the
heading line `# Hidden`. -/
theorem claim_C4_witness :
    (extractStep
      { sections := [], current_name := ofStr "Description",
        current_body := [], in_code_block := true } (ofStr "# Hidden")).sections = []
    ∧ (extractStep
      { sections := [], current_name := ofStr "Description",
        current_body := [], in_code_block := true }
      (ofStr "# Hidden")).current_name = ofStr "Description" :=
  claim_C4 _ _ rfl (by decide) (by decide)

/-- C5: one step of `Item::remove_test_code` with the fence open drops every
line beginning with the heading marker `"# "` (the state, kept lines
included, is unchanged), while a map/object literal line beginning with
`#{` is appended to the output unchanged. -/
theorem claim_C5 (acc : List Str) (fence : Bool) (line : Str) :
    (fence = true → startsWith line (ofStr "# ") = true →
      removeTestCodeStep (acc, fence) line = (acc, fence))
    ∧ (fence = true → startsWith line (ofStr "#\x7b") = true →
      removeTestCodeStep (acc, fence) line = (acc ++ [line], fence)) := by
  constructor
  · intro hf hsw
    have h' : startsWith line ('#' :: (' ' :: [])) = true := hsw
    have hb : startsWith line (ofStr "```") = false :=
      startsWith_ne_first h' (by decide)
    unfold removeTestCodeStep
    rw [hb]
    simp [hf, hsw]
  · intro hf hbr
    have h' : startsWith line ('#' :: ('\x7b' :: [])) = true := hbr
    have hb : startsWith line (ofStr "```") = false :=
      startsWith_ne_first h' (by decide)
    have hsw : startsWith line (ofStr "# ") = false := not_heading_of_brace hbr
    unfold removeTestCodeStep
    rw [hb, hsw]
    simp

/-- C5 witness: both parts at a concrete open-fence state, with the hidden
line `# hide` and the map-literal line `#{ "a": 1 }`. -/
theorem claim_C5_witness :
    removeTestCodeStep ([], true) (ofStr "# hide") = ([], true)
    ∧ removeTestCodeStep ([], true) (ofStr "#\x7b \x22a\x22: 1 \x7d") =
      ([] ++ [ofStr "#\x7b \x22a\x22: 1 \x7d"], true) :=
  ⟨(claim_C5 [] true (ofStr "# hide")).1 rfl (by decide),
   (claim_C5 [] true (ofStr "#\x7b \x22a\x22: 1 \x7d")).2 rfl (by decide)⟩

/-- C6 counterexample: `"a\n"` is a non-empty body string containing no
heading-marker line, yet extraction yields the single section with body
`"a"` — the trailing newline is not reproduced, so the body does not equal
the input. -/
theorem claim_C6_counterexample :
    extract_sections (ofStr "a\n") ≠
      [{ name := ofStr "Description", body := ofStr "a\n" }] := by decide

/-- C6 (amended): section extraction is the identity on already-extracted
bodies: every non-empty body string with no trailing newline, no carriage
returns, no line containing the heading marker `"# "`, and none of the
comment-marker tokens `///`, `/**`, `**/` (all properties that extracted
bodies enjoy) extracts to exactly one section named `Description` whose
body equals the input. -/
theorem claim_C6 (s : Str) (hne : s ≠ [])
    (hnl : s.getLast? ≠ some '\n') (hr : '\r' ∉ s)
    (hh : ∀ l ∈ rustLines s, containsSub l (ofStr "# ") = false)
    (h3 : containsSub s (ofStr "///") = false)
    (h4 : containsSub s (ofStr "/**") = false)
    (h5 : containsSub s (ofStr "**/") = false) :
    extract_sections s = [{ name := ofStr "Description", body := s }] :=
  extract_sections_of_clean s hne hnl hr hh h3 h4 h5

/-- C6 witness: the amended claim at the two-line body
`"hello\nworld"`. -/
theorem claim_C6_witness :
    extract_sections (ofStr "hello\nworld") =
      [{ name := ofStr "Description", body := ofStr "hello\nworld" }] :=
  claim_C6 (ofStr "hello\nworld") (by decide) (by decide) (by decide)
    (by decide) (by decide) (by decide) (by decide)

/-- C7: the kind of a synthesized definition is determined by the record's
name alone — `Operator` exactly for the fixed symbol set, otherwise
getter/setter/indexer kinds exactly for the reserved prefixes `get$`,
`set$`, `index$get$`, `index$set$`, otherwise `Function` — for every
parameter list and return type (which therefore never affect the
classification). -/
theorem claim_C7 (name : Str) (args : List ParamMap) (ret : Option Str) :
    (Definition.new name args ret).kind = specKindOfName name := by
  unfold Definition.new specKindOfName
  rw [← is_operator_eq_spec_list]
  cases hop : is_operator name with
  | true => simp [Definition.kind]
  | false =>
    simp only [Bool.false_eq_true, if_false]
    cases hg : stripPre name (ofStr "get$") with
    | some n =>
      rw [show startsWith name (ofStr "get$") = true by
        rw [← stripPre_isSome, hg]; rfl]
      simp [Definition.kind]
    | none =>
      rw [show startsWith name (ofStr "get$") = false by
        rw [← stripPre_isSome, hg]; rfl]
      simp only [Bool.false_eq_true, if_false]
      cases hs : stripPre name (ofStr "set$") with
      | some n =>
        rw [show startsWith name (ofStr "set$") = true by
          rw [← stripPre_isSome, hs]; rfl]
        simp [Definition.kind]
      | none =>
        rw [show startsWith name (ofStr "set$") = false by
          rw [← stripPre_isSome, hs]; rfl]
        simp only [Bool.false_eq_true, if_false]
        rw [show startsWith name (ofStr "index$get$") =
          (stripPre name (ofStr "index$get$")).isSome from
          (stripPre_isSome _ _).symm]
        rw [show startsWith name (ofStr "index$set$") =
          (stripPre name (ofStr "index$set$")).isSome from
          (stripPre_isSome _ _).symm]
        cases hig : (stripPre name (ofStr "index$get$")).isSome with
        | true => simp [Definition.kind]
        | false =>
          simp only [Bool.false_eq_true, if_false]
          cases his : (stripPre name (ofStr "index$set$")).isSome with
          | true => simp [Definition.kind]
          | false => simp [Definition.kind]

/-- C8: the record named `add` with parameters `a: INT`, `b: INT` and
return type `INT` synthesizes to exactly `fn add(a: int, b: int) -> int`. -/
theorem claim_C8 :
    Definition.display (Definition.new (ofStr "add")
      [{ pname := some (ofStr "a"), ptype := some (ofStr "INT") },
       { pname := some (ofStr "b"), ptype := some (ofStr "INT") }]
      (some (ofStr "INT"))) = ofStr "fn add(a: int, b: int) -> int" := by decide

/-- C9: a function group in which no overload carries doc comments produces
no item and no error: `Item::new_function` returns `Ok(None)` for any such
group, and a module whose functions are all undocumented assembles
successfully to the empty item list. -/
theorem claim_C9 :
    (∀ (metadata : List FunctionMetadata) (name : Str) (opts : Options),
      (∀ m ∈ metadata, m.doc_comments = none) →
      Item.new_function metadata name opts = .ok none)
    ∧ (∀ (fns : List FunctionMetadata) (opts : Options),
      (∀ m ∈ fns, m.doc_comments = none) →
      collectModuleItems none (some fns) opts = .ok []) := by
  refine ⟨fun metadata name opts h => new_function_undocumented metadata name opts h,
    fun fns opts h => ?_⟩
  have hgroups : ∀ g ∈ group_functions fns,
      Item.new_function g.2 g.1 opts = .ok none := fun g hg =>
    new_function_undocumented g.2 g.1 opts
      (group_functions_mem_preserve (fun m => m.doc_comments = none) fns h g hg)
  unfold collectModuleItems
  show Except.ok (order_items opts.items_order
      ((([] : List (Option Item)) ++ collectFnItems (some fns) opts).filterMap id)) =
    Except.ok ([] : List Item)
  rw [show collectFnItems (some fns) opts =
    (group_functions fns).foldl (fun acc g =>
        match Item.new_function g.2 g.1 opts with
        | .ok it => acc ++ [it]
        | .error _ => acc) [] from rfl]
  rw [fnGroups_fold_nones opts (group_functions fns) [] hgroups]
  have hnil : List.filterMap (id : Option Item → Option Item)
      ((group_functions fns).map (fun _ => none)) = [] := by
    induction group_functions fns with
    | nil => rfl
    | cons g gs ih => simp [List.filterMap_cons, ih]
  simp only [List.nil_append]
  rw [hnil]
  cases opts.items_order <;> rfl

/-- C9 witness: both parts at a concrete single undocumented overload. -/
theorem claim_C9_witness :
    Item.new_function
      [{ name := ofStr "f", params := none, return_type := none,
         doc_comments := none }] (ofStr "f")
      { items_order := .Alphabetical, sections_format := .Rust,
        include_standard_packages := false } = .ok none
    ∧ collectModuleItems none
        (some [{ name := ofStr "f", params := none, return_type := none,
                 doc_comments := none }])
        { items_order := .Alphabetical, sections_format := .Rust,
          include_standard_packages := false } = .ok [] :=
  ⟨claim_C9.1 _ _ _ (by decide), claim_C9.2 _ _ (by decide)⟩

/-- C10: a function group whose name starts with `anon$` yields no
documentation item from `Item::new_function`, regardless of the overloads'
doc comments (even when present). -/
theorem claim_C10 (metadata : List FunctionMetadata) (name : Str)
    (opts : Options) (h : startsWith name (ofStr "anon$") = true) :
    Item.new_function metadata name opts = .ok none := by
  unfold Item.new_function
  cases hf : metadata.find? (fun m => m.doc_comments.isSome) with
  | none => rfl
  | some root =>
    rw [h]
    simp

/-- C10 witness: a documented anonymous group still yields no item. -/
theorem claim_C10_witness :
    Item.new_function
      [{ name := ofStr "anon$fn_123", params := none, return_type := none,
         doc_comments := some [ofStr "docs"] }] (ofStr "anon$fn_123")
      { items_order := .Alphabetical, sections_format := .Rust,
        include_standard_packages := false } = .ok none :=
  claim_C10 _ _ _ (by decide)
